import Mathlib

/-!
Shallow embedding of the BVH verification layer of this repository:
the hierarchy validator in src/lbvh_test.cpp (check_bvh, check_bvh_volumes,
volume_of) and the work division scheduler in src/fake_thread_pool.h
(fake_task_scheduler).

Conventions of the embedding:

* The hierarchy type itself (class bvh, struct node, aabb, detail::size_of,
  work_division) lives in the external lbvh.h header, which is not part of
  this repository; those definitions are modelled from the spec, as their
  doc comments state.
* The C++ scalar type is float; the embedding idealises it as the integers,
  an ordered commutative ring carrying the subtraction, multiplication and
  strict order the checker uses (no property proved here depends on
  fractional values or on rounding).
* A checked vector access (vector::at / bvh::at), which throws out of range,
  is modelled as an Option valued read; a thrown exception, and likewise a
  non terminating recursion, is the result none, meaning the call completes
  with no exit status.
* An unchecked vector access (operator[]) past the end of the vector is
  undefined behaviour; it is modelled as reading an explicit junk parameter
  (the unspecified value found past the end).  Theorems quantify over, or
  instantiate, that junk value, so a dependence of a result on the junk value
  is exactly a dependence on out of bounds memory.
-/

namespace Lbvh

/-- Modelled from the spec: a three component vector of the scalar type
(lbvh.h vec3, consumed here only as the corner type of bounding boxes). -/
structure vec3 where
  x : Int
  y : Int
  z : Int
deriving DecidableEq

/-- Modelled from the spec: an axis aligned bounding box, given by its two
corner points (lbvh.h aabb; the fields are named min and max in the source). -/
structure aabb where
  lo : vec3
  hi : vec3
deriving DecidableEq

/-- Modelled from the spec: detail::size_of (lbvh.h) returns the extent of a
box along each of the three axes. -/
def size_of (box : aabb) : vec3 :=
  ⟨box.hi.x - box.lo.x, box.hi.y - box.lo.y, box.hi.z - box.lo.z⟩

/-- volume_of, src/lbvh_test.cpp lines 18 to 21: the product of the three
extents of a bounding box. -/
def volume_of (box : aabb) : Int :=
  let s := size_of box
  s.x * s.y * s.z

/-- Modelled from the spec: each child reference of an internal node is
tagged as either an internal node index or a leaf index (lbvh.h stores a
single integer whose high bit is the tag). -/
inductive child_ref where
  | internal (idx : Nat)
  | leaf (idx : Nat)
deriving DecidableEq

/-- The tag test on a child reference (lbvh.h left_is_leaf / right_is_leaf). -/
def child_ref.is_leaf : child_ref → Bool
  | .internal _ => false
  | .leaf _ => true

/-- The untagged index payload of a child reference: the node index of an
internal reference, or the leaf index of a leaf reference
(lbvh.h left_leaf_index / right_leaf_index, and the raw field otherwise). -/
def child_ref.index : child_ref → Nat
  | .internal i => i
  | .leaf i => i

/-- Modelled from the spec: an internal node of the hierarchy, holding a
bounding box and the two tagged child references (lbvh.h node). -/
structure node where
  box : aabb
  left : child_ref
  right : child_ref
deriving DecidableEq

/-- Modelled from the spec: the hierarchy is an array of internal nodes; for
P primitives there are P - 1 internal nodes, indices 0 through P - 2, and P
leaves (lbvh.h bvh, consumed read only). -/
structure bvh where
  nodes : List node
deriving DecidableEq

/-- bvh::size, the number of internal nodes. -/
def bvh.size (b : bvh) : Nat := b.nodes.length

/-- bvh::at, the bounds checked node access: none models the out of range
exception. -/
def bvh.atNode (b : bvh) (i : Nat) : Option node := b.nodes.get? i

/-- The unchecked node access bvh::operator[]: a read past the end of the
node array is undefined behaviour, modelled as returning the junk value jn. -/
def bvh.read (jn : node) (b : bvh) (i : Nat) : node := b.nodes.getD i jn

/-- The exit status of the validator: EXIT_SUCCESS or EXIT_FAILURE. -/
inductive exit_status where
  | success
  | failure
deriving DecidableEq

/-- The local error count of one internal node in the geometric audit,
src/lbvh_test.cpp lines 35 to 59: one error for each child that is an
internal node whose box volume exceeds the parent volume.  The two node
reads are bvh::at calls, so an out of range child index gives none. -/
def local_errors (b : bvh) (index : Nat) : Option Nat := do
  let nd ← b.atNode index
  let parent_volume := volume_of nd.box
  let e1 ←
    if nd.left.is_leaf then pure 0
    else do
      let ln ← b.atNode nd.left.index
      pure (if parent_volume < volume_of ln.box then 1 else 0)
  let e2 ←
    if nd.right.is_leaf then pure e1
    else do
      let rn ← b.atNode nd.right.index
      pure (if parent_volume < volume_of rn.box then e1 + 1 else e1)
  pure e2

/-- The exit code initialisation of check_bvh_volumes, src/lbvh_test.cpp
line 65: failure when the local error count is non zero. -/
def exit_of (errors : Nat) : exit_status :=
  if errors ≠ 0 then .failure else .success

/-- The folding of a recursive call result into the accumulated exit code,
src/lbvh_test.cpp lines 69 to 82: a non success result replaces the
accumulator. -/
def fold_exit (ret acc : exit_status) : exit_status :=
  if ret ≠ .success then ret else acc

/-- check_bvh_volumes, src/lbvh_test.cpp lines 33 to 86, instrumented with
the list of node indices the recursion enters (the visit trace, in call
order).  The extra fuel argument bounds the recursion depth: fuel 0 models a
recursion that does not complete (the C++ function would recurse without
bound on a cyclic node graph).  The status component reproduces the source
exactly: a local violation under the fatal flag returns before descending; a
failing left subtree call under the fatal flag returns immediately, skipping
the right subtree; a failing right subtree call is only folded into the
accumulated exit code. -/
def check_bvh_volumes (b : bvh) (errors_fatal : Bool) :
    Nat → Nat → Option (exit_status × List Nat)
  | 0, _ => none
  | fuel + 1, index =>
    match b.atNode index with
    | none => none
    | some nd =>
      match local_errors b index with
      | none => none
      | some errors =>
        if errors ≠ 0 ∧ errors_fatal = true then some (.failure, [index])
        else
          if nd.left.is_leaf then
            if nd.right.is_leaf then some (exit_of errors, [index])
            else
              match check_bvh_volumes b errors_fatal fuel nd.right.index with
              | none => none
              | some (ret2, rtr) =>
                some (fold_exit ret2 (exit_of errors), index :: rtr)
          else
            match check_bvh_volumes b errors_fatal fuel nd.left.index with
            | none => none
            | some (ret, ltr) =>
              if ret ≠ .success ∧ errors_fatal = true then
                some (ret, index :: ltr)
              else
                if nd.right.is_leaf then
                  some (fold_exit ret (exit_of errors), index :: ltr)
                else
                  match check_bvh_volumes b errors_fatal fuel nd.right.index with
                  | none => none
                  | some (ret2, rtr) =>
                    some (fold_exit ret2 (fold_exit ret (exit_of errors)),
                          index :: ltr ++ rtr)

/-- One counter increment counts.at(i)++ on a counter vector,
src/lbvh_test.cpp lines 107, 111, 141 and 145: vector::at throws out of
range, modelled as none. -/
def counts_inc (counts : List Nat) (i : Nat) : Option (List Nat) :=
  if h : i < counts.length then some (counts.set i (counts.get ⟨i, h⟩ + 1))
  else none

/-- The first reference count sweep of check_bvh, src/lbvh_test.cpp lines
102 to 113: one counter per internal node index, incremented once for every
internal child reference of every internal node.  The loop runs i from 0 to
bvh.size() - 1, so every node read bvh[i] is in bounds. -/
def count_node_refs (jn : node) (b : bvh) : Option (List Nat) :=
  (List.range b.size).foldlM
    (fun counts i =>
      let nd := b.read jn i
      do
        let counts1 ←
          if nd.left.is_leaf then pure counts else counts_inc counts nd.left.index
        if nd.right.is_leaf then pure counts1 else counts_inc counts1 nd.right.index)
    (List.replicate b.size 0)

/-- The second reference count sweep of check_bvh, src/lbvh_test.cpp lines
136 to 147: one counter per leaf index (bvh.size() + 1 of them), incremented
once for every leaf child reference.  The loop bound is bvh.size() + 1, as
in the source, so the last iteration reads the node bvh[bvh.size()], one
past the end of the node array: that read yields the junk value jn. -/
def count_leaf_refs (jn : node) (b : bvh) : Option (List Nat) :=
  (List.range (b.size + 1)).foldlM
    (fun counts i =>
      let nd := b.read jn i
      do
        let counts1 ←
          if nd.left.is_leaf then counts_inc counts nd.left.index else pure counts
        if nd.right.is_leaf then counts_inc counts1 nd.right.index else pure counts1)
    (List.replicate (b.size + 1) 0)

/-- The shared shape of the two counter checking loops of check_bvh,
src/lbvh_test.cpp lines 122 to 134 and 149 to 159: for each index in idxs,
read the counter (an unchecked read, always in range at every call site,
with junk value jc past the end) and, when it differs from one, either
return failure at once under the fatal flag, or increment the running error
count.  Except.error models the early return, Except.ok the fall through
with the accumulated error count. -/
def ref_count_check (errors_fatal : Bool) (jc : Nat) (counts : List Nat)
    (idxs : List Nat) (init : Nat) : Except exit_status Nat :=
  idxs.foldlM
    (fun errors i =>
      if counts.getD i jc ≠ 1 then
        if errors_fatal = true then Except.error .failure
        else Except.ok (errors + 1)
      else Except.ok errors)
    init

/-- check_bvh, src/lbvh_test.cpp lines 98 to 166.  The junk parameters jn
(a node value) and jc (a counter value) stand for the unspecified values an
unchecked vector read past the end observes; errors_fatal is the policy
flag.  The phases appear in source order: the node reference sweep, the
root counter check (which reports but does not add to the error count), the
node counter loop, the leaf reference sweep, the leaf counter loop, and
finally either the cumulative failure or the geometric audit, whose fuel
bvh.size() + 1 covers every recursion that terminates in C++ (the depth of
an acyclic descent is at most the node count). -/
def check_bvh (jn : node) (jc : Nat) (b : bvh) (errors_fatal : Bool) :
    Option exit_status :=
  match count_node_refs jn b with
  | none => none
  | some node_counts =>
    if node_counts.getD 0 jc > 0 ∧ errors_fatal = true then some .failure
    else
      match ref_count_check errors_fatal jc node_counts
          (List.range' 1 (node_counts.length - 1)) 0 with
      | Except.error st => some st
      | Except.ok errors1 =>
        match count_leaf_refs jn b with
        | none => none
        | some leaf_counts =>
          match ref_count_check errors_fatal jc leaf_counts
              (List.range leaf_counts.length) errors1 with
          | Except.error st => some st
          | Except.ok errors =>
            if errors > 0 then some .failure
            else (check_bvh_volumes b errors_fatal (b.size + 1) 0).map Prod.fst

/-- Modelled from the spec: work_division (lbvh.h), one partition of a
parallel task, pure data. -/
structure work_division where
  index : Nat
  count : Nat
deriving DecidableEq

/-- fake_task_scheduler, src/fake_thread_pool.h: its one data member, the
worker count limit. -/
structure fake_task_scheduler where
  max_threads : Nat
deriving DecidableEq

/-- The constructor of fake_task_scheduler, src/fake_thread_pool.h lines 20
to 21: a zero limit is replaced by one. -/
def fake_task_scheduler.make (m : Nat) : fake_task_scheduler :=
  ⟨if m = 0 then 1 else m⟩

/-- The divisions handed to spawned threads by operator(),
src/fake_thread_pool.h lines 30 to 35: indices 0 through max_threads - 2. -/
def fake_task_scheduler.spawned_divisions (s : fake_task_scheduler) :
    List work_division :=
  (List.range (s.max_threads - 1)).map fun i => ⟨i, s.max_threads⟩

/-- The division run synchronously on the calling context by operator(),
src/fake_thread_pool.h line 37: index max_threads - 1. -/
def fake_task_scheduler.sync_division (s : fake_task_scheduler) : work_division :=
  ⟨s.max_threads - 1, s.max_threads⟩

/-- All divisions one call to operator() invokes the task with, spawned ones
first, then the synchronous one. -/
def fake_task_scheduler.divisions (s : fake_task_scheduler) : List work_division :=
  s.spawned_divisions ++ [s.sync_division]

/-- One call to operator() as a state transformer: the task runs once per
division and the call returns only after all of them (the join loop,
src/fake_thread_pool.h lines 39 to 41), so the state the caller observes
after the call is the fold of the task over all divisions.  The divisions
are mutually unordered in the source; the fold fixes one serialisation. -/
def fake_task_scheduler.run {σ : Type} (s : fake_task_scheduler)
    (task : work_division → σ → σ) (init : σ) : σ :=
  s.divisions.foldl (fun st d => task d st) init

/-! Specification side definitions, written from the words of the spec and
compared against the embedded code. -/

/-- Modelled from the spec: a parent and child volume violation exists at
node j when some child of j is itself an internal node whose box volume
exceeds the volume of j.  Leaf children are not checked. -/
def spec_violation_b (b : bvh) (j : Nat) : Bool :=
  match b.atNode j with
  | none => false
  | some nd =>
    (match nd.left with
     | .internal l =>
       match b.atNode l with
       | some ln => decide (volume_of nd.box < volume_of ln.box)
       | none => false
     | .leaf _ => false)
    ||
    (match nd.right with
     | .internal r =>
       match b.atNode r with
       | some rn => decide (volume_of nd.box < volume_of rn.box)
       | none => false
     | .leaf _ => false)

/-- Modelled from the spec: containment monotonicity holds at node j when
every child of j that is itself an internal node exists and has a box
volume at most the volume of j.  Leaf children are not checked. -/
def spec_contained_b (b : bvh) (j : Nat) : Bool :=
  match b.atNode j with
  | none => false
  | some nd =>
    (match nd.left with
     | .internal l =>
       match b.atNode l with
       | some ln => decide (volume_of ln.box ≤ volume_of nd.box)
       | none => false
     | .leaf _ => true)
    &&
    (match nd.right with
     | .internal r =>
       match b.atNode r with
       | some rn => decide (volume_of rn.box ≤ volume_of nd.box)
       | none => false
     | .leaf _ => true)

/-- Modelled from the spec: the order in which a recursive descent of the
hierarchy visits internal nodes, entering the left subtree before the right
one, independent of every bounding box.  The fuel argument bounds the
recursion depth as in check_bvh_volumes; none means the descent does not
complete within the fuel or a child index is out of bounds. -/
def spec_reach_order (b : bvh) : Nat → Nat → Option (List Nat)
  | 0, _ => none
  | fuel + 1, index =>
    match b.atNode index with
    | none => none
    | some nd =>
      match (if nd.left.is_leaf then some [] else spec_reach_order b fuel nd.left.index) with
      | none => none
      | some ltr =>
        match (if nd.right.is_leaf then some [] else spec_reach_order b fuel nd.right.index) with
        | none => none
        | some rtr => some (index :: ltr ++ rtr)

/-! Concrete hierarchies used to evaluate the embedded checker. -/

/-- A unit box of volume one. -/
def box1 : aabb := ⟨⟨0, 0, 0⟩, ⟨1, 1, 1⟩⟩

/-- A box of volume eight. -/
def box8 : aabb := ⟨⟨0, 0, 0⟩, ⟨2, 2, 2⟩⟩

/-- A box of volume twenty seven. -/
def box27 : aabb := ⟨⟨0, 0, 0⟩, ⟨3, 3, 3⟩⟩

/-- A structurally and geometrically valid hierarchy over two primitives:
one internal node whose children are the two leaves. -/
def bValid : bvh := ⟨[⟨box8, .leaf 0, .leaf 1⟩]⟩

/-- A benign junk node: both child references are tagged internal, so the
leaf sweep takes no increment from it. -/
def jnB : node := ⟨box1, .internal 0, .internal 0⟩

/-- A junk node with two leaf children, indices 0 and 1. -/
def jnL : node := ⟨box1, .leaf 0, .leaf 1⟩

/-- A hierarchy over four primitives in which the root is referenced as a
child: node 2 references node 0 (the root) and node 1; node 1 references
node 2; the real nodes reference leaves 0, 1 and 2 but not leaf 3. -/
def bRootRef : bvh :=
  ⟨[⟨box8, .leaf 0, .leaf 1⟩,
    ⟨box1, .internal 2, .leaf 2⟩,
    ⟨box1, .internal 0, .internal 1⟩]⟩

/-- A junk node contributing exactly the missing reference to leaf 3 of
bRootRef. -/
def jn4 : node := ⟨box1, .leaf 3, .internal 0⟩

/-- A hierarchy over four primitives whose reference counts are all exactly
right, yet nodes 1 and 2 form a cycle unreachable from the root, and node
2, an internal child of node 1, has a larger volume than node 1. -/
def bCycle : bvh :=
  ⟨[⟨box8, .leaf 0, .leaf 1⟩,
    ⟨box1, .internal 2, .leaf 2⟩,
    ⟨box8, .internal 1, .leaf 3⟩]⟩

/-- A well formed two node tree whose root has a left internal child of
larger volume: one geometric violation at the root. -/
def bViol : bvh :=
  ⟨[⟨box1, .internal 1, .leaf 0⟩,
    ⟨box8, .leaf 1, .leaf 2⟩]⟩

/-- A three node tree with no violation at the root, whose left child node 1
has a violating internal child node 2. -/
def bLeft : bvh :=
  ⟨[⟨box27, .internal 1, .internal 2⟩,
    ⟨box1, .internal 2, .leaf 0⟩,
    ⟨box8, .leaf 1, .leaf 2⟩]⟩

/-- A three node graph with no violation at the root, a clean left child
node 1, and a right child node 2 that violates through its own internal
child (the root itself, giving the violation at node 2). -/
def bRight : bvh :=
  ⟨[⟨box27, .internal 1, .internal 2⟩,
    ⟨box1, .leaf 0, .leaf 1⟩,
    ⟨box1, .internal 0, .leaf 2⟩]⟩

/-- The hierarchy with no internal node at all. -/
def bEmpty : bvh := ⟨[]⟩

/-! Claim theorems. -/

/-- C1: the claim states that the reference count sweep filling the leaf
counter array reads node indices 0 through P - 2 only and never reads
outside the internal node array.  The code violates it: the loop bound is
bvh.size() + 1, so on the valid two primitive hierarchy (one internal node,
index 0 only) the sweep also reads node index 1, one past the end of the
array, and the leaf counters it produces depend on the junk found there:
benign junk yields the correct counters, junk carrying leaf tags corrupts
them. -/
theorem leaf_sweep_reads_past_node_array :
    bValid.size = 1 ∧
    count_leaf_refs jnB bValid = some [1, 1] ∧
    count_leaf_refs jnL bValid = some [2, 2] ∧
    count_leaf_refs jnB bValid ≠ count_leaf_refs jnL bValid :=
  ⟨rfl, rfl, rfl, by decide⟩

/-- C2: the claim states that whenever the root is referenced as a child,
validate reports it and returns Failure for both values of the errors
fatal flag.  On bRootRef the root is referenced (its counter is 1), and with
the flag set check_bvh indeed fails; but with the flag clear the root branch
adds nothing to the error count, the out of bounds junk read of the leaf
sweep supplies the reference to leaf 3 that the real nodes miss, every
counter check passes, and check_bvh returns Success. -/
theorem root_reference_nonfatal_can_succeed :
    (count_node_refs jn4 bRootRef).map (fun counts => counts.getD 0 0) = some 1 ∧
    check_bvh jn4 0 bRootRef false = some .success ∧
    check_bvh jn4 0 bRootRef true = some .failure :=
  ⟨rfl, rfl, rfl⟩

/-- C5: a scheduler constructed with worker count limit 0 is the very same
value as one constructed with limit 1: no spawned division, one synchronous
invocation with division index 0, count 1. -/
theorem scheduler_zero_behaves_as_one :
    fake_task_scheduler.make 0 = fake_task_scheduler.make 1 ∧
    (fake_task_scheduler.make 0).divisions = [⟨0, 1⟩] ∧
    (fake_task_scheduler.make 0).spawned_divisions = [] ∧
    (fake_task_scheduler.make 0).sync_division = ⟨0, 1⟩ :=
  ⟨rfl, rfl, rfl, rfl⟩

/-- C6: the claim states that a valid hierarchy validates to Success (and
that Success characterises exactly the correct reference counts plus a
violation free geometry).  On the valid two primitive hierarchy the verdict
is not determined by the hierarchy: it depends on the junk node the leaf
sweep reads one past the end of the node array.  Benign junk gives Success,
junk carrying leaf tags 0 and 1 makes the same valid hierarchy fail, under
both values of the errors fatal flag. -/
theorem valid_bvh_verdict_depends_on_junk :
    check_bvh jnB 0 bValid false = some .success ∧
    check_bvh jnL 0 bValid false = some .failure ∧
    check_bvh jnB 0 bValid true = some .success ∧
    check_bvh jnL 0 bValid true = some .failure :=
  ⟨rfl, rfl, rfl, rfl⟩

/-- C9: the claim states that in non fatal mode a structural violation
always yields a cumulative Failure and always prevents phase 2 from
running.  On bRootRef with the masking junk node, the root reference
violation is present (root counter 1), yet the error count stays zero, the
verdict check_bvh returns is exactly the verdict of the phase 2 geometric
audit, and that audit ran and returned Success on the trace consisting of
the root alone. -/
theorem structural_violation_reaches_phase_two :
    (count_node_refs jn4 bRootRef).map (fun counts => counts.getD 0 0) = some 1 ∧
    check_bvh_volumes bRootRef false (bRootRef.size + 1) 0 = some (.success, [0]) ∧
    check_bvh jn4 0 bRootRef false =
      (check_bvh_volumes bRootRef false (bRootRef.size + 1) 0).map Prod.fst :=
  ⟨rfl, rfl, rfl⟩

/-- C7 counterexample: the claim states that Success implies containment
monotonicity at every internal node.  bCycle validates to Success (its
reference counts are all exactly right and the audit of the part reachable
from the root finds nothing), yet internal node 1 has the internal child 2
whose volume eight exceeds its own volume one. -/
theorem success_despite_unreachable_violation :
    check_bvh jnB 0 bCycle false = some .success ∧
    check_bvh jnB 0 bCycle true = some .success ∧
    bCycle.atNode 1 = some ⟨box1, .internal 2, .leaf 2⟩ ∧
    (bCycle.atNode 2).map node.box = some box8 ∧
    volume_of box1 < volume_of box8 ∧
    spec_violation_b bCycle 1 = true :=
  ⟨rfl, rfl, rfl, rfl, by decide, by decide⟩

/-- C4: for every worker count limit W at least 1, one scheduling call
invokes the task exactly W times, once with each division of index 0
through W - 1 and count W, with no repeats and no gaps, and the state the
caller observes after the call is the fold of the task over all W
divisions (the join completes every invocation before the call returns). -/
theorem scheduler_divisions_exact (W : Nat) (hW : 1 ≤ W) :
    (fake_task_scheduler.make W).divisions =
      (List.range W).map (fun i => (⟨i, W⟩ : work_division)) ∧
    (fake_task_scheduler.make W).divisions.length = W ∧
    (fake_task_scheduler.make W).divisions.Nodup ∧
    (∀ i, i < W → (⟨i, W⟩ : work_division) ∈ (fake_task_scheduler.make W).divisions) ∧
    (∀ d ∈ (fake_task_scheduler.make W).divisions, d.index < W ∧ d.count = W) ∧
    ∀ (σ : Type) (task : work_division → σ → σ) (init : σ),
      (fake_task_scheduler.make W).run task init =
        ((List.range W).map (fun i => (⟨i, W⟩ : work_division))).foldl
          (fun st d => task d st) init := by
  have hne : W ≠ 0 := Nat.one_le_iff_ne_zero.mp hW
  have hm : fake_task_scheduler.make W = ⟨W⟩ := by
    simp [fake_task_scheduler.make, hne]
  have hr : List.range W = List.range (W - 1) ++ [W - 1] := by
    conv_lhs => rw [← Nat.sub_add_cancel hW]
    rw [List.range_succ]
  have hdiv : (fake_task_scheduler.make W).divisions =
      (List.range W).map (fun i => (⟨i, W⟩ : work_division)) := by
    rw [hm]
    show (List.range (W - 1)).map (fun i => (⟨i, W⟩ : work_division)) ++ [⟨W - 1, W⟩]
        = (List.range W).map (fun i => (⟨i, W⟩ : work_division))
    rw [hr, List.map_append]
    rfl
  have hinj : Function.Injective (fun i => (⟨i, W⟩ : work_division)) := by
    intro a b hab
    simpa [work_division.mk.injEq] using hab
  refine ⟨hdiv, ?_, ?_, ?_, ?_, ?_⟩
  · rw [hdiv, List.length_map, List.length_range]
  · rw [hdiv]
    exact (List.nodup_range W).map hinj
  · intro i hi
    rw [hdiv]
    exact List.mem_map_of_mem _ (List.mem_range.mpr hi)
  · intro d hd
    rw [hdiv] at hd
    obtain ⟨i, hi, rfl⟩ := List.mem_map.mp hd
    exact ⟨List.mem_range.mp hi, rfl⟩
  · intro σ task init
    rw [fake_task_scheduler.run, hdiv]

/-- Witness for C4 at worker count 4: the scheduler invokes the task with
exactly the divisions of indices 0, 1, 2, 3 and count 4, with no repeats. -/
theorem scheduler_divisions_exact_witness :
    (fake_task_scheduler.make 4).divisions =
      (List.range 4).map (fun i => (⟨i, 4⟩ : work_division)) ∧
    (fake_task_scheduler.make 4).divisions.Nodup :=
  ⟨(scheduler_divisions_exact 4 (by decide)).1,
   (scheduler_divisions_exact 4 (by decide)).2.2.1⟩

/-- C10: on the hierarchy with zero internal nodes, check_bvh never
completes with Success for any junk values and either flag value; the
outcome it does produce is decided entirely by the junk values the out of
bounds reads observe: with benign junk the leaf counter check fails, while
junk carrying leaf tags drives a counter increment out of range (no result
at all).  A defined result therefore requires at least one internal node,
that is at least two primitives. -/
theorem empty_bvh_has_no_defined_result :
    (∀ (jn : node) (jc : Nat) (ef : Bool), check_bvh jn jc bEmpty ef ≠ some .success) ∧
    check_bvh jnB 0 bEmpty true = some .failure ∧
    check_bvh jnL 0 bEmpty true = none ∧
    check_bvh jnB 0 bEmpty false = some .failure ∧
    check_bvh jnL 0 bEmpty false = none := by
  refine ⟨?_, rfl, rfl, rfl, rfl⟩
  intro jn jc ef h
  obtain ⟨bx, l, r⟩ := jn
  rcases l with li | li
  · rcases r with ri | ri
    · cases ef <;> revert h <;>
        simp [check_bvh, count_node_refs, count_leaf_refs, counts_inc,
          ref_count_check, check_bvh_volumes, bEmpty, bvh.size, bvh.read,
          bvh.atNode, child_ref.is_leaf, child_ref.index, List.foldlM,
          pure, Except.pure, bind, Except.bind]
    · rcases ri with _ | ri <;> cases ef <;> revert h <;>
        simp [check_bvh, count_node_refs, count_leaf_refs, counts_inc,
          ref_count_check, check_bvh_volumes, bEmpty, bvh.size, bvh.read,
          bvh.atNode, child_ref.is_leaf, child_ref.index, List.foldlM,
          pure, Except.pure, bind, Except.bind]
  · rcases li with _ | li
    · rcases r with ri | ri
      · cases ef <;> revert h <;>
          simp [check_bvh, count_node_refs, count_leaf_refs, counts_inc,
            ref_count_check, check_bvh_volumes, bEmpty, bvh.size, bvh.read,
            bvh.atNode, child_ref.is_leaf, child_ref.index, List.foldlM,
            pure, Except.pure, bind, Except.bind]
      · rcases ri with _ | ri <;> cases ef <;> revert h <;>
          simp [check_bvh, count_node_refs, count_leaf_refs, counts_inc,
            ref_count_check, check_bvh_volumes, bEmpty, bvh.size, bvh.read,
            bvh.atNode, child_ref.is_leaf, child_ref.index, List.foldlM,
            pure, Except.pure, bind, Except.bind]
    · cases ef <;> revert h <;>
        simp [check_bvh, count_node_refs, count_leaf_refs, counts_inc,
          ref_count_check, check_bvh_volumes, bEmpty, bvh.size, bvh.read,
          bvh.atNode, child_ref.is_leaf, child_ref.index, List.foldlM,
          pure, Except.pure, bind, Except.bind]

/-- C3: the three propagation behaviours of the phase 2 geometric audit in
fatal mode.  First, a node with a local volume violation returns Failure at
once, its visit trace being the node alone (no descent).  Second, a Failure
completed by the left subtree call propagates upward immediately: the
caller returns that Failure having visited only itself and the left
subtree, never the right one.  Third, a result completed by the right
subtree call, Failure included, is only folded into the accumulated status:
the caller returns normally after the full right subtree visit, the folded
status being exactly the right call's status when everything before it was
clean. -/
theorem volume_audit_fatal_asymmetry :
    (∀ (b : bvh) (fuel index e : Nat),
        local_errors b index = some e → e ≠ 0 →
        check_bvh_volumes b true (fuel + 1) index = some (.failure, [index])) ∧
    (∀ (b : bvh) (fuel index l : Nat) (nd : node) (ltr : List Nat),
        b.atNode index = some nd →
        local_errors b index = some 0 →
        nd.left = .internal l →
        check_bvh_volumes b true fuel l = some (.failure, ltr) →
        check_bvh_volumes b true (fuel + 1) index = some (.failure, index :: ltr)) ∧
    (∀ (b : bvh) (fuel index l r : Nat) (nd : node) (ltr rtr : List Nat)
        (st : exit_status),
        b.atNode index = some nd →
        local_errors b index = some 0 →
        nd.left = .internal l →
        nd.right = .internal r →
        check_bvh_volumes b true fuel l = some (.success, ltr) →
        check_bvh_volumes b true fuel r = some (st, rtr) →
        check_bvh_volumes b true (fuel + 1) index = some (st, index :: ltr ++ rtr)) := by
  refine ⟨?_, ?_, ?_⟩
  · intro b fuel index e he hne
    have hA : ∃ nd, b.atNode index = some nd := by
      unfold local_errors at he
      cases h : b.atNode index with
      | none =>
        rw [h] at he
        simp at he
      | some nd => exact ⟨nd, rfl⟩
    obtain ⟨nd, hnd⟩ := hA
    simp only [check_bvh_volumes, hnd, he]
    rw [if_pos ⟨hne, trivial⟩]
  · intro b fuel index l nd ltr hnd h0 hl hrec
    simp only [check_bvh_volumes, hnd, h0, hl, hrec, child_ref.is_leaf,
      child_ref.index]
    rw [if_neg (fun hc => hc.1 rfl)]
    simp only [Bool.false_eq_true, if_false]
    rw [if_pos ⟨fun hc => exit_status.noConfusion hc, trivial⟩]
  · intro b fuel index l r nd ltr rtr st hnd h0 hl hr hrecl hrecr
    simp only [check_bvh_volumes, hnd, h0, hl, hr, hrecl, hrecr,
      child_ref.is_leaf, child_ref.index]
    rw [if_neg (fun hc => hc.1 rfl)]
    simp only [Bool.false_eq_true, if_false]
    rw [if_neg (fun hc => hc.1 rfl)]
    have hst : fold_exit st (fold_exit .success (exit_of 0)) = st := by
      cases st <;> rfl
    rw [hst]

/-- Witness for C3: the three behaviours at concrete inputs.  bViol has a
local violation at its root, which fails alone.  bLeft is clean at the root
but its left subtree fails, and the audit returns that failure after
visiting nodes 0 and 1 only, skipping the right subtree node 2.  bRight is
clean at the root and on the left, and the failure completed by the right
subtree call at node 2 is folded and returned after the full visit. -/
theorem volume_audit_fatal_asymmetry_witness :
    check_bvh_volumes bViol true 1 0 = some (.failure, [0]) ∧
    check_bvh_volumes bLeft true 3 0 = some (.failure, [0, 1]) ∧
    check_bvh_volumes bRight true 2 0 = some (.failure, [0, 1, 2]) :=
  ⟨volume_audit_fatal_asymmetry.1 bViol 0 0 1 (by decide) (by decide),
   volume_audit_fatal_asymmetry.2.1 bLeft 2 0 1 ⟨box27, .internal 1, .internal 2⟩
     [1] (by decide) (by decide) rfl (by decide),
   volume_audit_fatal_asymmetry.2.2 bRight 1 0 1 2 ⟨box27, .internal 1, .internal 2⟩
     [1] [2] .failure (by decide) (by decide) rfl rfl (by decide) (by decide)⟩

/-! Helper lemmas about the geometric audit, shared by the remaining
claims. -/

theorem exit_of_eq_success (e : Nat) : exit_of e = .success ↔ e = 0 := by
  by_cases h : e = 0 <;> simp [exit_of, h]

theorem exit_of_eq_failure (e : Nat) : exit_of e = .failure ↔ e ≠ 0 := by
  by_cases h : e = 0 <;> simp [exit_of, h]

theorem fold_exit_eq_success (r a : exit_status) :
    fold_exit r a = .success ↔ r = .success ∧ a = .success := by
  cases r <;> cases a <;> simp [fold_exit]

theorem fold_exit_eq_failure (r a : exit_status) :
    fold_exit r a = .failure ↔ r = .failure ∨ a = .failure := by
  cases r <;> cases a <;> simp [fold_exit]

/-- Inversion of one successful step of check_bvh_volumes: the node and its
local error count exist, and the result takes one of the four shapes of the
source body (fatal local violation; two leaf children; leaf left and
internal right; internal left, itself split by the early return, the leaf
right and the internal right). -/
theorem audit_succ_inversion (b : bvh) (ef : Bool) (fuel index : Nat)
    (st : exit_status) (tr : List Nat)
    (h : check_bvh_volumes b ef (fuel + 1) index = some (st, tr)) :
    ∃ nd e, b.atNode index = some nd ∧ local_errors b index = some e ∧
      ((e ≠ 0 ∧ ef = true ∧ st = .failure ∧ tr = [index]) ∨
       (nd.left.is_leaf = true ∧ nd.right.is_leaf = true ∧
         st = exit_of e ∧ tr = [index]) ∨
       (nd.left.is_leaf = true ∧ nd.right.is_leaf = false ∧
         ∃ ret2 rtr, check_bvh_volumes b ef fuel nd.right.index = some (ret2, rtr) ∧
           st = fold_exit ret2 (exit_of e) ∧ tr = index :: rtr) ∨
       (nd.left.is_leaf = false ∧
         ∃ ret ltr, check_bvh_volumes b ef fuel nd.left.index = some (ret, ltr) ∧
           ((ret ≠ .success ∧ ef = true ∧ st = ret ∧ tr = index :: ltr) ∨
            (nd.right.is_leaf = true ∧
              st = fold_exit ret (exit_of e) ∧ tr = index :: ltr) ∨
            (nd.right.is_leaf = false ∧
              ∃ ret2 rtr,
                check_bvh_volumes b ef fuel nd.right.index = some (ret2, rtr) ∧
                st = fold_exit ret2 (fold_exit ret (exit_of e)) ∧
                tr = index :: ltr ++ rtr)))) := by
  simp only [check_bvh_volumes] at h
  split at h
  · exact absurd h (by simp)
  rename_i nd hnd
  split at h
  · exact absurd h (by simp)
  rename_i e he
  refine ⟨nd, e, hnd, he, ?_⟩
  by_cases hf : e ≠ 0 ∧ ef = true
  · rw [if_pos hf] at h
    simp only [Option.some.injEq, Prod.mk.injEq] at h
    exact Or.inl ⟨hf.1, hf.2, h.1.symm, h.2.symm⟩
  · rw [if_neg hf] at h
    cases hL : nd.left.is_leaf with
    | true =>
      rw [hL, if_pos rfl] at h
      cases hR : nd.right.is_leaf with
      | true =>
        rw [hR, if_pos rfl] at h
        simp only [Option.some.injEq, Prod.mk.injEq] at h
        exact Or.inr (Or.inl ⟨rfl, rfl, h.1.symm, h.2.symm⟩)
      | false =>
        rw [hR, if_neg (fun hc => Bool.noConfusion hc)] at h
        split at h
        · exact absurd h (by simp)
        rename_i ret2 rtr hrec
        simp only [Option.some.injEq, Prod.mk.injEq] at h
        exact Or.inr (Or.inr (Or.inl
          ⟨rfl, rfl, ret2, rtr, hrec, h.1.symm, h.2.symm⟩))
    | false =>
      rw [hL, if_neg (fun hc => Bool.noConfusion hc)] at h
      split at h
      · exact absurd h (by simp)
      rename_i ret ltr hrecl
      refine Or.inr (Or.inr (Or.inr ⟨rfl, ret, ltr, hrecl, ?_⟩))
      by_cases hrf : ret ≠ .success ∧ ef = true
      · rw [if_pos hrf] at h
        simp only [Option.some.injEq, Prod.mk.injEq] at h
        exact Or.inl ⟨hrf.1, hrf.2, h.1.symm, h.2.symm⟩
      · rw [if_neg hrf] at h
        cases hR : nd.right.is_leaf with
        | true =>
          rw [hR, if_pos rfl] at h
          simp only [Option.some.injEq, Prod.mk.injEq] at h
          exact Or.inr (Or.inl ⟨rfl, h.1.symm, h.2.symm⟩)
        | false =>
          rw [hR, if_neg (fun hc => Bool.noConfusion hc)] at h
          split at h
          · exact absurd h (by simp)
          rename_i ret2 rtr hrecr
          simp only [Option.some.injEq, Prod.mk.injEq] at h
          exact Or.inr (Or.inr
            ⟨rfl, ret2, rtr, hrecr, h.1.symm, h.2.symm⟩)

/-- Every node visited by a successful audit has local error count zero,
under either policy flag: a non zero count makes the accumulated exit code
failure on every path that returns it. -/
theorem volumes_success_all_clean (b : bvh) (ef : Bool) :
    ∀ (fuel index : Nat) (tr : List Nat),
      check_bvh_volumes b ef fuel index = some (.success, tr) →
      ∀ j ∈ tr, local_errors b j = some 0 := by
  intro fuel
  induction fuel with
  | zero =>
    intro index tr h
    simp [check_bvh_volumes] at h
  | succ fuel ih =>
    intro index tr h j hj
    obtain ⟨nd, e, hnd, he, hcase⟩ :=
      audit_succ_inversion b ef fuel index .success tr h
    rcases hcase with ⟨hne, hef, hst, htr⟩ | ⟨hL, hR, hst, htr⟩ |
      ⟨hL, hR, ret2, rtr, hrec, hst, htr⟩ | ⟨hL, ret, ltr, hrecl, hsub⟩
    · exact absurd hst (by decide)
    · have he0 : e = 0 := (exit_of_eq_success e).mp hst.symm
      subst htr
      rw [List.mem_singleton] at hj
      subst hj
      rw [he, he0]
    · have hfold := (fold_exit_eq_success _ _).mp hst.symm
      have he0 : e = 0 := (exit_of_eq_success e).mp hfold.2
      subst htr
      rcases List.mem_cons.mp hj with rfl | hjr
      · rw [he, he0]
      · rw [hfold.1] at hrec
        exact ih nd.right.index rtr hrec j hjr
    · rcases hsub with ⟨hrne, hef, hst, htr⟩ | ⟨hR, hst, htr⟩ |
        ⟨hR, ret2, rtr, hrecr, hst, htr⟩
      · exact absurd hst.symm hrne
      · have hfold := (fold_exit_eq_success _ _).mp hst.symm
        have he0 : e = 0 := (exit_of_eq_success e).mp hfold.2
        subst htr
        rcases List.mem_cons.mp hj with rfl | hjl
        · rw [he, he0]
        · rw [hfold.1] at hrecl
          exact ih nd.left.index ltr hrecl j hjl
      · have hfold := (fold_exit_eq_success _ _).mp hst.symm
        have hfold2 := (fold_exit_eq_success _ _).mp hfold.2
        have he0 : e = 0 := (exit_of_eq_success e).mp hfold2.2
        subst htr
        rcases List.mem_cons.mp hj with rfl | hjlr
        · rw [he, he0]
        · rcases List.mem_append.mp hjlr with hjl | hjr
          · rw [hfold2.1] at hrecl
            exact ih nd.left.index ltr hrecl j hjl
          · rw [hfold.1] at hrecr
            exact ih nd.right.index rtr hrecr j hjr

/-- Every node visited by any completed audit has a defined local error
count (its own node read and the reads of its internal children all
succeeded). -/
theorem audit_members_local (b : bvh) (ef : Bool) :
    ∀ (fuel index : Nat) (st : exit_status) (tr : List Nat),
      check_bvh_volumes b ef fuel index = some (st, tr) →
      ∀ j ∈ tr, ∃ e, local_errors b j = some e := by
  intro fuel
  induction fuel with
  | zero =>
    intro index st tr h
    simp [check_bvh_volumes] at h
  | succ fuel ih =>
    intro index st tr h j hj
    obtain ⟨nd, e, hnd, he, hcase⟩ := audit_succ_inversion b ef fuel index st tr h
    rcases hcase with ⟨_, _, _, htr⟩ | ⟨_, _, _, htr⟩ |
      ⟨_, _, ret2, rtr, hrec, _, htr⟩ | ⟨_, ret, ltr, hrecl, hsub⟩
    · subst htr
      rw [List.mem_singleton] at hj
      subst hj
      exact ⟨e, he⟩
    · subst htr
      rw [List.mem_singleton] at hj
      subst hj
      exact ⟨e, he⟩
    · subst htr
      rcases List.mem_cons.mp hj with rfl | hjr
      · exact ⟨e, he⟩
      · exact ih nd.right.index ret2 rtr hrec j hjr
    · rcases hsub with ⟨_, _, _, htr⟩ | ⟨_, _, htr⟩ | ⟨_, ret2, rtr, hrecr, _, htr⟩
      · subst htr
        rcases List.mem_cons.mp hj with rfl | hjl
        · exact ⟨e, he⟩
        · exact ih nd.left.index ret ltr hrecl j hjl
      · subst htr
        rcases List.mem_cons.mp hj with rfl | hjl
        · exact ⟨e, he⟩
        · exact ih nd.left.index ret ltr hrecl j hjl
      · subst htr
        rcases List.mem_cons.mp hj with rfl | hjlr
        · exact ⟨e, he⟩
        · rcases List.mem_append.mp hjlr with hjl | hjr
          · exact ih nd.left.index ret ltr hrecl j hjl
          · exact ih nd.right.index ret2 rtr hrecr j hjr

/-- In non fatal mode a completed audit returns failure exactly when some
visited node has a non zero local error count: no early return fires, so
the statuses of all subtrees are folded into the result. -/
theorem nonfatal_audit_failure_iff (b : bvh) :
    ∀ (fuel index : Nat) (st : exit_status) (tr : List Nat),
      check_bvh_volumes b false fuel index = some (st, tr) →
      (st = .failure ↔ ∃ j ∈ tr, ∃ e, local_errors b j = some e ∧ e ≠ 0) := by
  intro fuel
  induction fuel with
  | zero =>
    intro index st tr h
    simp [check_bvh_volumes] at h
  | succ fuel ih =>
    intro index st tr h
    obtain ⟨nd, e, hnd, he, hcase⟩ :=
      audit_succ_inversion b false fuel index st tr h
    rcases hcase with ⟨_, hef, _, _⟩ | ⟨hL, hR, hst, htr⟩ |
      ⟨hL, hR, ret2, rtr, hrec, hst, htr⟩ | ⟨hL, ret, ltr, hrecl, hsub⟩
    · exact absurd hef (by decide)
    · subst htr
      subst hst
      rw [exit_of_eq_failure]
      constructor
      · intro hne
        exact ⟨index, by simp, e, he, hne⟩
      · rintro ⟨k, hk, e2, he2, hne2⟩
        rw [List.mem_singleton] at hk
        subst hk
        rw [he] at he2
        injection he2 with heq
        subst heq
        exact hne2
    · subst htr
      subst hst
      rw [fold_exit_eq_failure, exit_of_eq_failure]
      have ihr := ih nd.right.index ret2 rtr hrec
      constructor
      · rintro (hr2 | hne)
        · obtain ⟨k, hk, e2, he2, hne2⟩ := ihr.mp hr2
          exact ⟨k, List.mem_cons_of_mem _ hk, e2, he2, hne2⟩
        · exact ⟨index, List.mem_cons_self _ _, e, he, hne⟩
      · rintro ⟨k, hk, e2, he2, hne2⟩
        rcases List.mem_cons.mp hk with rfl | hk2
        · right
          rw [he] at he2
          injection he2 with heq
          subst heq
          exact hne2
        · left
          exact ihr.mpr ⟨k, hk2, e2, he2, hne2⟩
    · rcases hsub with ⟨hrne, hef, hst, htr⟩ | ⟨hR, hst, htr⟩ |
        ⟨hR, ret2, rtr, hrecr, hst, htr⟩
      · exact absurd hef (by decide)
      · subst htr
        subst hst
        rw [fold_exit_eq_failure, exit_of_eq_failure]
        have ihl := ih nd.left.index ret ltr hrecl
        constructor
        · rintro (hr1 | hne)
          · obtain ⟨k, hk, e2, he2, hne2⟩ := ihl.mp hr1
            exact ⟨k, List.mem_cons_of_mem _ hk, e2, he2, hne2⟩
          · exact ⟨index, List.mem_cons_self _ _, e, he, hne⟩
        · rintro ⟨k, hk, e2, he2, hne2⟩
          rcases List.mem_cons.mp hk with rfl | hk2
          · right
            rw [he] at he2
            injection he2 with heq
            subst heq
            exact hne2
          · left
            exact ihl.mpr ⟨k, hk2, e2, he2, hne2⟩
      · subst htr
        subst hst
        rw [fold_exit_eq_failure, fold_exit_eq_failure, exit_of_eq_failure]
        have ihl := ih nd.left.index ret ltr hrecl
        have ihr := ih nd.right.index ret2 rtr hrecr
        constructor
        · rintro (hr2 | hr1 | hne)
          · obtain ⟨k, hk, e2, he2, hne2⟩ := ihr.mp hr2
            exact ⟨k, List.mem_cons_of_mem _ (List.mem_append.mpr (Or.inr hk)),
              e2, he2, hne2⟩
          · obtain ⟨k, hk, e2, he2, hne2⟩ := ihl.mp hr1
            exact ⟨k, List.mem_cons_of_mem _ (List.mem_append.mpr (Or.inl hk)),
              e2, he2, hne2⟩
          · exact ⟨index, List.mem_cons_self _ _, e, he, hne⟩
        · rintro ⟨k, hk, e2, he2, hne2⟩
          rcases List.mem_cons.mp hk with rfl | hk2
          · right
            right
            rw [he] at he2
            injection he2 with heq
            subst heq
            exact hne2
          · rcases List.mem_append.mp hk2 with hkl | hkr
            · right
              left
              exact ihl.mpr ⟨k, hkl, e2, he2, hne2⟩
            · left
              exact ihr.mpr ⟨k, hkr, e2, he2, hne2⟩

/-- A node with a defined local error count lies inside the node array. -/
theorem local_errors_bound (b : bvh) (j e : Nat)
    (h : local_errors b j = some e) : j < b.size := by
  unfold local_errors at h
  cases hnd : b.atNode j with
  | none =>
    rw [hnd] at h
    simp [bind, Option.bind] at h
  | some nd =>
    unfold bvh.atNode at hnd
    obtain ⟨hlt, -⟩ := List.get?_eq_some.mp hnd
    exact hlt

/-- The local error count is non zero exactly when the spec level parent
and child volume violation predicate holds at the node. -/
theorem local_errors_violation (b : bvh) (j e : Nat)
    (h : local_errors b j = some e) :
    (e ≠ 0 ↔ spec_violation_b b j = true) := by
  unfold local_errors at h
  unfold spec_violation_b
  cases hnd : b.atNode j with
  | none =>
    rw [hnd] at h
    simp [bind, Option.bind] at h
  | some nd =>
    rw [hnd] at h
    simp only [bind, Option.bind] at h
    cases hL : nd.left with
    | leaf li =>
      cases hR : nd.right with
      | leaf ri =>
        simp [hL, hR, child_ref.is_leaf, child_ref.index, pure] at h ⊢
        omega
      | internal ri =>
        cases hrn : b.atNode ri with
        | none =>
          simp [hL, hR, hrn, child_ref.is_leaf, child_ref.index, pure] at h
        | some rn =>
          simp only [hL, hR, hrn, child_ref.is_leaf, child_ref.index,
            pure] at h ⊢
          by_cases hc2 : volume_of nd.box < volume_of rn.box <;>
            simp [hc2] at h ⊢ <;> omega
    | internal li =>
      cases hln : b.atNode li with
      | none =>
        simp [hL, hln, child_ref.is_leaf, child_ref.index, pure] at h
      | some ln =>
        cases hR : nd.right with
        | leaf ri =>
          simp only [hL, hR, hln, child_ref.is_leaf, child_ref.index,
            pure] at h ⊢
          by_cases hc1 : volume_of nd.box < volume_of ln.box <;>
            simp [hc1] at h ⊢ <;> omega
        | internal ri =>
          cases hrn : b.atNode ri with
          | none =>
            simp [hL, hR, hln, hrn, child_ref.is_leaf, child_ref.index,
              pure] at h
          | some rn =>
            simp only [hL, hR, hln, hrn, child_ref.is_leaf, child_ref.index,
              pure] at h ⊢
            by_cases hc1 : volume_of nd.box < volume_of ln.box <;>
              by_cases hc2 : volume_of nd.box < volume_of rn.box <;>
                simp [hc1, hc2] at h ⊢ <;> omega

/-- A node with local error count zero satisfies the spec level containment
predicate: both internal children exist and have volumes bounded by the
parent volume. -/
theorem local_clean_contained (b : bvh) (j : Nat)
    (h : local_errors b j = some 0) :
    spec_contained_b b j = true := by
  unfold local_errors at h
  unfold spec_contained_b
  cases hnd : b.atNode j with
  | none =>
    rw [hnd] at h
    simp [bind, Option.bind] at h
  | some nd =>
    rw [hnd] at h
    simp only [bind, Option.bind] at h
    cases hL : nd.left with
    | leaf li =>
      cases hR : nd.right with
      | leaf ri =>
        simp [hL, hR, child_ref.is_leaf, child_ref.index, pure]
      | internal ri =>
        cases hrn : b.atNode ri with
        | none =>
          simp [hL, hR, hrn, child_ref.is_leaf, child_ref.index, pure] at h
        | some rn =>
          simp only [hL, hR, hrn, child_ref.is_leaf, child_ref.index,
            pure] at h ⊢
          by_cases hc2 : volume_of nd.box < volume_of rn.box
          · simp [hc2] at h
          · simp [hc2]
            exact le_of_not_lt hc2
    | internal li =>
      cases hln : b.atNode li with
      | none =>
        simp [hL, hln, child_ref.is_leaf, child_ref.index, pure] at h
      | some ln =>
        cases hR : nd.right with
        | leaf ri =>
          simp only [hL, hR, hln, child_ref.is_leaf, child_ref.index,
            pure] at h ⊢
          by_cases hc1 : volume_of nd.box < volume_of ln.box
          · simp [hc1] at h
          · simp [hc1]
            exact le_of_not_lt hc1
        | internal ri =>
          cases hrn : b.atNode ri with
          | none =>
            simp [hL, hR, hln, hrn, child_ref.is_leaf, child_ref.index,
              pure] at h
          | some rn =>
            simp only [hL, hR, hln, hrn, child_ref.is_leaf, child_ref.index,
              pure] at h ⊢
            by_cases hc1 : volume_of nd.box < volume_of ln.box
            · by_cases hc2 : volume_of nd.box < volume_of rn.box
              · simp [hc1, hc2] at h
              · simp [hc1, hc2] at h
            · by_cases hc2 : volume_of nd.box < volume_of rn.box
              · simp [hc1, hc2] at h
              · simp [hc1, hc2]
                exact ⟨le_of_not_lt hc1, le_of_not_lt hc2⟩

/-- The counter checking loop reports early returns with failure only. -/
theorem ref_count_check_error (ef : Bool) (jc : Nat) (counts : List Nat) :
    ∀ (idxs : List Nat) (init : Nat) (st : exit_status),
      ref_count_check ef jc counts idxs init = Except.error st → st = .failure := by
  intro idxs
  induction idxs with
  | nil =>
    intro init st h
    simp [ref_count_check, List.foldlM, pure, Except.pure] at h
  | cons i rest ih =>
    intro init st h
    unfold ref_count_check at h ih
    simp only [List.foldlM] at h
    by_cases h1 : counts.getD i jc ≠ 1
    · rw [if_pos h1] at h
      by_cases h2 : ef = true
      · rw [if_pos h2] at h
        simp only [bind, Except.bind] at h
        injection h with h
        exact h.symm
      · rw [if_neg h2] at h
        simp only [bind, Except.bind] at h
        exact ih (init + 1) st h
    · rw [if_neg h1] at h
      simp only [bind, Except.bind] at h
      exact ih init st h

/-- C7 amended: whenever check_bvh returns Success, the phase 2 geometric
audit completed with Success on some visit trace starting at the root, and
every internal node on that trace (every node the audit visits, that is
every internal node reachable from the root) satisfies containment
monotonicity: each of its children that is itself an internal node has
volume at most the node volume.  Leaf children are not checked, and nodes
the descent never reaches are not constrained (bCycle shows the original
claim fails for them). -/
theorem success_implies_visited_containment
    (jn : node) (jc : Nat) (b : bvh) (ef : Bool)
    (h : check_bvh jn jc b ef = some .success) :
    ∃ tr, check_bvh_volumes b ef (b.size + 1) 0 = some (.success, tr) ∧
      ∀ j ∈ tr, spec_contained_b b j = true := by
  unfold check_bvh at h
  split at h
  · exact absurd h (by simp)
  rename_i node_counts hcn
  split at h
  · exact absurd h (by decide)
  split at h
  · rename_i st hst
    injection h with h
    have hf := ref_count_check_error ef jc node_counts _ 0 st hst
    rw [h] at hf
    exact absurd hf (by decide)
  rename_i errors1 hok1
  split at h
  · exact absurd h (by simp)
  rename_i leaf_counts hcl
  split at h
  · rename_i st hst
    injection h with h
    have hf := ref_count_check_error ef jc leaf_counts _ errors1 st hst
    rw [h] at hf
    exact absurd hf (by decide)
  rename_i errors hok2
  split at h
  · exact absurd h (by decide)
  cases hv : check_bvh_volumes b ef (b.size + 1) 0 with
  | none =>
    rw [hv] at h
    simp at h
  | some p =>
    obtain ⟨st, tr⟩ := p
    rw [hv] at h
    simp only [Option.map] at h
    injection h with h
    subst h
    refine ⟨tr, rfl, ?_⟩
    intro j hj
    exact local_clean_contained b j
      (volumes_success_all_clean b ef (b.size + 1) 0 tr hv j hj)

/-- Witness for the amended C7: on the valid two primitive hierarchy with
benign junk, check_bvh returns Success and the audit trace satisfies the
containment predicate throughout. -/
theorem success_implies_visited_containment_witness :
    ∃ tr, check_bvh_volumes bValid false (bValid.size + 1) 0 = some (.success, tr) ∧
      ∀ j ∈ tr, spec_contained_b bValid j = true :=
  success_implies_visited_containment jnB 0 bValid false (by decide)

/-- A completed descent starts at a node that exists. -/
theorem reach_atNode (b : bvh) (fuel i : Nat) (tr : List Nat)
    (h : spec_reach_order b fuel i = some tr) : ∃ nd, b.atNode i = some nd := by
  cases fuel with
  | zero => simp [spec_reach_order] at h
  | succ fuel =>
    simp only [spec_reach_order] at h
    split at h
    · exact absurd h (by simp)
    rename_i nd hnd
    exact ⟨nd, hnd⟩

/-- The local error count of a node is defined as soon as the node and its
internal children exist. -/
theorem local_errors_some_of (b : bvh) (i : Nat) (nd : node)
    (hnd : b.atNode i = some nd)
    (hl : nd.left.is_leaf = false → ∃ ln, b.atNode nd.left.index = some ln)
    (hr : nd.right.is_leaf = false → ∃ rn, b.atNode nd.right.index = some rn) :
    ∃ e, local_errors b i = some e := by
  unfold local_errors
  cases hLB : nd.left.is_leaf with
  | true =>
    cases hRB : nd.right.is_leaf with
    | true => simp [hnd, hLB, hRB, bind, Option.bind, pure]
    | false =>
      obtain ⟨rn, hrn⟩ := hr hRB
      simp [hnd, hLB, hRB, hrn, bind, Option.bind, pure]
  | false =>
    obtain ⟨ln, hln⟩ := hl hLB
    cases hRB : nd.right.is_leaf with
    | true => simp [hnd, hLB, hRB, hln, bind, Option.bind, pure]
    | false =>
      obtain ⟨rn, hrn⟩ := hr hRB
      simp [hnd, hLB, hRB, hln, hrn, bind, Option.bind, pure]

/-- In non fatal mode the audit terminates exactly along the structural
descent and visits exactly the descent order, whatever the bounding boxes
hold: violations never change the traversal. -/
theorem nonfatal_audit_trace (b : bvh) :
    ∀ (fuel index : Nat) (tr : List Nat),
      spec_reach_order b fuel index = some tr →
      ∃ st, check_bvh_volumes b false fuel index = some (st, tr) := by
  intro fuel
  induction fuel with
  | zero =>
    intro index tr h
    simp [spec_reach_order] at h
  | succ fuel ih =>
    intro index tr h
    simp only [spec_reach_order] at h
    split at h
    · exact absurd h (by simp)
    rename_i nd hnd
    split at h
    · exact absurd h (by simp)
    rename_i ltr hltr
    split at h
    · exact absurd h (by simp)
    rename_i rtr hrtr
    injection h with h
    subst h
    have hlex : nd.left.is_leaf = false → ∃ ln, b.atNode nd.left.index = some ln := by
      intro hLB
      rw [hLB] at hltr
      rw [if_neg (by simp)] at hltr
      exact reach_atNode b fuel nd.left.index ltr hltr
    have hrex : nd.right.is_leaf = false → ∃ rn, b.atNode nd.right.index = some rn := by
      intro hRB
      rw [hRB] at hrtr
      rw [if_neg (by simp)] at hrtr
      exact reach_atNode b fuel nd.right.index rtr hrtr
    obtain ⟨e, he⟩ := local_errors_some_of b index nd hnd hlex hrex
    cases hLB : nd.left.is_leaf with
    | true =>
      rw [hLB] at hltr
      rw [if_pos rfl] at hltr
      injection hltr with hltr
      subst hltr
      cases hRB : nd.right.is_leaf with
      | true =>
        rw [hRB] at hrtr
        rw [if_pos rfl] at hrtr
        injection hrtr with hrtr
        subst hrtr
        refine ⟨exit_of e, ?_⟩
        simp only [check_bvh_volumes, hnd, he, hLB, hRB]
        rw [if_neg (by simp)]
        rw [if_pos (by simp), if_pos (by simp)]
        simp
      | false =>
        rw [hRB] at hrtr
        rw [if_neg (by simp)] at hrtr
        obtain ⟨st2, hst2⟩ := ih nd.right.index rtr hrtr
        refine ⟨fold_exit st2 (exit_of e), ?_⟩
        simp only [check_bvh_volumes, hnd, he, hLB, hRB, hst2]
        rw [if_neg (by simp)]
        rw [if_pos (by simp)]
        rw [if_neg (by simp)]
        simp
    | false =>
      rw [hLB] at hltr
      rw [if_neg (by simp)] at hltr
      obtain ⟨st1, hst1⟩ := ih nd.left.index ltr hltr
      cases hRB : nd.right.is_leaf with
      | true =>
        rw [hRB] at hrtr
        rw [if_pos rfl] at hrtr
        injection hrtr with hrtr
        subst hrtr
        refine ⟨fold_exit st1 (exit_of e), ?_⟩
        simp only [check_bvh_volumes, hnd, he, hLB, hRB, hst1]
        rw [if_neg (by simp)]
        rw [if_neg (by simp)]
        rw [if_neg (by simp)]
        rw [if_pos (by simp)]
        simp
      | false =>
        rw [hRB] at hrtr
        rw [if_neg (by simp)] at hrtr
        obtain ⟨st2, hst2⟩ := ih nd.right.index rtr hrtr
        refine ⟨fold_exit st2 (fold_exit st1 (exit_of e)), ?_⟩
        simp only [check_bvh_volumes, hnd, he, hLB, hRB, hst1, hst2]
        rw [if_neg (by simp)]
        rw [if_neg (by simp)]
        rw [if_neg (by simp)]
        rw [if_neg (by simp)]

/-- C8: when the errors fatal flag is clear and the hierarchy is a tree on
its node array (the structural descent from the root completes, repeats no
node and reaches every node), the phase 2 audit visits every internal node
exactly once, along the descent order and regardless of what the bounding
boxes contain, and it returns Failure exactly when a parent and child
volume violation exists somewhere among the internal nodes. -/
theorem nonfatal_audit_full_visit_iff_violation
    (b : bvh) (tr : List Nat)
    (h1 : spec_reach_order b (b.size + 1) 0 = some tr)
    (h2 : tr.Nodup)
    (h3 : ∀ j, j < b.size → j ∈ tr) :
    ∃ st, check_bvh_volumes b false (b.size + 1) 0 = some (st, tr) ∧
      tr.Nodup ∧ (∀ j, j < b.size → j ∈ tr) ∧
      (st = .failure ↔ ∃ j, j < b.size ∧ spec_violation_b b j = true) := by
  obtain ⟨st, hst⟩ := nonfatal_audit_trace b (b.size + 1) 0 tr h1
  refine ⟨st, hst, h2, h3, ?_⟩
  rw [nonfatal_audit_failure_iff b (b.size + 1) 0 st tr hst]
  constructor
  · rintro ⟨j, hj, e, he, hne⟩
    exact ⟨j, local_errors_bound b j e he,
      (local_errors_violation b j e he).mp hne⟩
  · rintro ⟨j, hjlt, hviol⟩
    obtain ⟨e, he⟩ := audit_members_local b false (b.size + 1) 0 st tr hst j (h3 j hjlt)
    exact ⟨j, h3 j hjlt, e, he, (local_errors_violation b j e he).mpr hviol⟩

/-- Witness for C8 on the two node tree bViol, whose descent visits nodes 0
then 1 and which contains one violation: the audit returns Failure on the
full trace. -/
theorem nonfatal_audit_full_visit_iff_violation_witness :
    ∃ st, check_bvh_volumes bViol false (bViol.size + 1) 0 = some (st, [0, 1]) ∧
      List.Nodup [0, 1] ∧ (∀ j, j < bViol.size → j ∈ [0, 1]) ∧
      (st = .failure ↔ ∃ j, j < bViol.size ∧ spec_violation_b bViol j = true) :=
  nonfatal_audit_full_visit_iff_violation bViol [0, 1] (by decide) (by decide)
    (by decide)

end Lbvh
